import Mathlib

set_option maxHeartbeats 1000000

/-!
Shallow embedding of the taskcheck scheduling core
(src/taskcheck/__main__.py and src/taskcheck/parallel.py).

Modelling conventions:
* Python strings that are parsed are `List Char`; uuid and time-map-key
  strings, which the code only compares for equality, are abstracted to
  numeric identifiers `ℕ` (which also carry a total order, as the strings
  do).
* Python floats are `ℚ` (exact arithmetic; the code never relies on float
  rounding for the claims settled here).
* Dates are `ℤ` day numbers, day offsets are `ℕ`.
-/

namespace Taskcheck

/-! ### Duration codec (PDTH_to_hours / hours_to_PDTH) -/

/-- Decimal digit character for a value below 10, as produced by Python
decimal formatting. -/
def digitChar (n : ℕ) : Char := Char.ofNat (48 + n)

/-- Fuel-driven helper for decimal printing; the fuel only needs to be at
least the number to print, so it never runs out where used. -/
def natToDecAux : ℕ → ℕ → List Char
  | 0, n => [digitChar (n % 10)]
  | fuel + 1, n =>
    if n < 10 then [digitChar n]
    else natToDecAux fuel (n / 10) ++ [digitChar (n % 10)]

/-- Decimal representation of a natural number, as Python produces for a
nonnegative integer (most significant digit first, no leading zeros). -/
def natToDec (n : ℕ) : List Char := natToDecAux n n

/-- Embedding of Python `int` applied to a string of decimal digits
(`int` raises on non-digit input; it is only applied to digit strings here). -/
def parseNat (l : List Char) : ℕ :=
  l.foldl (fun a c => 10 * a + (c.toNat - 48)) 0

/-- Embedding of Python `str.split` with a one-character separator: splits on
every occurrence of the separator, keeping empty parts. -/
def splitAll (sep : Char) : List Char → List (List Char)
  | [] => [[]]
  | c :: rest =>
    if c = sep then [] :: splitAll sep rest
    else
      match splitAll sep rest with
      | [] => [[c]]
      | p :: ps => (c :: p) :: ps

/-- Embedding of `PDTH_to_hours` (src/taskcheck/__main__.py lines 107-117).
The leading character is dropped; if a `D` is present the string is split at
it (Python unpacks exactly two parts; parts 0 and 1 are taken here) and the
day part parsed; if an `H` is present in the remainder, the hour count is
the part between the `T` and the `H`.  Returns `days * 24 + hours`. -/
def PDTH_to_hours (s : List Char) : ℕ :=
  let t0 := s.drop 1
  let days := if 'D' ∈ t0 then parseNat ((splitAll 'D' t0).getD 0 []) else 0
  let t := if 'D' ∈ t0 then (splitAll 'D' t0).getD 1 [] else t0
  let hours :=
    if 'H' ∈ t then parseNat ((splitAll 'H' ((splitAll 'T' t).getD 1 [])).getD 0 [])
    else 0
  days * 24 + hours

/-- Embedding of `hours_to_PDTH` (src/taskcheck/__main__.py lines 120-123) on
integer hour counts: emits `P{n / 24}DT{n % 24}H` with `//` and `%`. -/
def hours_to_PDTH (n : ℕ) : List Char :=
  ['P'] ++ natToDec (n / 24) ++ ['D', 'T'] ++ natToDec (n % 24) ++ ['H']

/-- The canonical duration string `P{d}DT{h}H` for whole day and hour
counts. -/
def canonPDTH (d h : ℕ) : List Char :=
  ['P'] ++ natToDec d ++ ['D', 'T'] ++ natToDec h ++ ['H']

/-! ### Urgency estimation (compute_estimated_urgency) -/

/-- Python `int()` truncation toward zero on a rational. -/
def pytrunc (q : ℚ) : ℤ := if 0 ≤ q then ⌊q⌋ else -⌊-q⌋

/-- Character at index 1 of `hours_to_PDTH(r)` for nonnegative `r`: the
emitted string is `P` followed by the rendering of the day count `r // 24`
(Python floor division), so index 1 is the most significant digit of that
day count, whether the count is rendered as an int or as a float. -/
def pdth_char1 (r : ℚ) : Char := (natToDec (Int.toNat ⌊r / 24⌋)).headD '0'

/-- Embedding of Python `min(keys, key=f)`: iterates the list keeping the
running minimum, replacing it only on a strictly smaller key, so the first
element attaining the minimum wins. -/
def pyMinBy {α : Type} (f : α → ℤ) (a : α) (l : List α) : α :=
  l.foldl (fun best x => if f x < f best then x else best) a

/-- The selection key used on the coefficient keys in
`compute_estimated_urgency` (src/taskcheck/parallel.py line 41):
`abs(int(pdth_value[1]) - int(PDTH_to_hours(x[1])))`.  Both `[1]` indexings
take single characters: the left one is `pdth_char1`, and on the right
`PDTH_to_hours` is applied to the one-character string `x[1]` (index 1 of a
shorter key would raise in Python; the default is irrelevant as every
one-character string maps to 0 hours). -/
def keyDist (r : ℚ) (k : List Char) : ℤ :=
  |(((pdth_char1 r).toNat : ℤ) - 48) - (PDTH_to_hours [k.getD 1 'P'] : ℤ)|

/-- Urgency coefficient sets: the Python dict
`{estimated_value: coefficient}` in insertion order. -/
abbrev Coeffs := List (List Char × ℚ)

/-- Embedding of `compute_estimated_urgency` (src/taskcheck/parallel.py
lines 32-46; textually identical in src/taskcheck/__main__.py lines
358-372): render the remaining hours in PDTH form, select the key of
minimal `keyDist`, and multiply that key's coefficient by the remaining
hours.  Python raises on an empty dict (`min` of an empty sequence); the
empty case is mapped to 0 and is outside every claim. -/
def compute_estimated_urgency (r : ℚ) (coeffs : Coeffs) : ℚ :=
  match coeffs with
  | [] => 0
  | c :: cs =>
    let closest := pyMinBy (keyDist r) c.1 (cs.map Prod.fst)
    let coefficient :=
      (((c :: cs).find? fun p => decide (p.1 = closest)).map Prod.snd).getD 0
    coefficient * r

/-! ### Availability (get_available_hours) -/

/-- A `datetime.time` value at minute granularity (the events and working
windows handled by the code carry whole minutes). -/
structure Tm where
  hh : ℕ
  mm : ℕ
deriving DecidableEq

/-- Python comparison of `datetime.time` values: lexicographic. -/
def tmLt (a b : Tm) : Bool :=
  decide (a.hh < b.hh) || (decide (a.hh = b.hh) && decide (a.mm < b.mm))

/-- Python `min(a, b)`: the first argument wins ties. -/
def tmMin (a b : Tm) : Tm := if tmLt b a then b else a

/-- Python `max(a, b)`: the first argument wins ties. -/
def tmMax (a b : Tm) : Tm := if tmLt a b then b else a

/-- A calendar event: start/end instants as (day number, time of day). -/
structure Ev where
  sd : ℤ
  stm : Tm
  ed : ℤ
  etm : Tm

/-- A weekly time map: weekday index (`date.strftime("%A")`, embedded as
`date mod 7`) to the optional list of working windows in decimal clock
values. -/
abbrev TimeMap := ℕ → Option (List (ℚ × ℚ))

/-- Weekday of a day number (the concrete correspondence weekday-name to
residue is irrelevant to the claims). -/
def weekday (date : ℤ) : ℕ := (date % 7).toNat

/-- Embedding of `_hours_to_decimal` (src/taskcheck/__main__.py lines
44-45): reinterpret `H.MM` clock values as fractional hours. -/
def hoursToDecimal (q : ℚ) : ℚ := pytrunc q + (q - pytrunc q) * 100 / 60

/-- Embedding of `_hours_to_time` (lines 48-51): split a decimal clock
value into a `datetime.time`. -/
def hoursToTime (q : ℚ) : Tm :=
  ⟨(pytrunc q).toNat, (pytrunc ((q - pytrunc q) * 100)).toNat⟩

/-- Embedding of `_time_to_decimal` (lines 54-56). -/
def timeToDecimal (t : Tm) : ℚ := t.hh + (t.mm : ℚ) / 60

/-- Hours of one event blocked inside one working window `[ss, se]` on
`date` (src/taskcheck/__main__.py lines 86-97): events straddling the date
are clipped to 00:00 / 23:59, and the overlap with the window is counted if
the clipped event intersects it. -/
def evBlocked (date : ℤ) (ss se : Tm) (ev : Ev) : ℚ :=
  let es := if ev.sd < date then (⟨0, 0⟩ : Tm) else ev.stm
  let ee := if date < ev.ed then (⟨23, 59⟩ : Tm) else ev.etm
  if tmLt es se && tmLt ss ee then
    timeToDecimal (tmMin se ee) - timeToDecimal (tmMax ss es)
  else 0

/-- Per-calendar scan (lines 74-97): events are walked in order; the first
event starting after `date` stops the scan, events ending before `date` are
skipped, every other event contributes its blocked overlap. -/
def calBlocked (date : ℤ) (ss se : Tm) : List Ev → ℚ
  | [] => 0
  | ev :: rest =>
    if date < ev.sd then 0
    else if ev.ed < date then calBlocked date ss se rest
    else evBlocked date ss se ev + calBlocked date ss se rest

/-- Embedding of `get_available_hours` (src/taskcheck/__main__.py lines
59-104): gross working-window hours of the weekday minus the blocked hours
collected per window and per calendar; the difference is returned as is. -/
def get_available_hours (tm : TimeMap) (date : ℤ) (cals : List (List Ev)) : ℚ :=
  let schedule := (tm (weekday date)).getD []
  let available := (schedule.map fun w => hoursToDecimal w.2 - hoursToDecimal w.1).sum
  let blocked := (schedule.map fun w =>
    (cals.map (calBlocked date (hoursToTime w.1) (hoursToTime w.2))).sum).sum
  available - blocked

/-- Example time map for C9: one window 09:00-10:00 on weekday 0, no other
weekday present. -/
def c9TimeMap : TimeMap := fun w => if w = 0 then some [(9, 10)] else none

/-- Example calendar for C9: a single event 09:00-10:00 on day 0. -/
def c9Cal : List Ev := [⟨0, ⟨9, 0⟩, 0, ⟨10, 0⟩⟩]

/-! ### Parallel allocator (check_tasks_parallel, src/taskcheck/parallel.py)

The allocator state after initialization (lines 67-91).  Python mutates
shared objects: the per-task dicts are reachable both from `task_info` and
from `tasks_remaining`, and the horizon vectors are memoized by
`get_long_range_time_map` (src/taskcheck/__main__.py lines 126-143) in a
module-level dict keyed by the joined time-map names, so two tasks with the
same `time_map` string receive the *same list object*.  The embedding makes
both sharings explicit: task dicts live in `infos` and are referenced by
uuid, horizon vectors live in `cache` and are referenced by time-map key. -/

/-- One entry of `task_info` (src/taskcheck/parallel.py lines 80-91).
`scheduling` is the per-day allocation dict (absent day = 0), keyed by day
offset (the code keys by the ISO date `today + offset`, a bijection).
`depends` and `wait` are carried on the task object but never read by this
allocator. -/
structure TaskInfo where
  uuid : ℕ
  remaining_hours : ℚ
  today_used_hours : ℚ
  timeMapKey : ℕ
  scheduling : ℕ → ℚ
  urgency : ℚ
  estimated_urgency : ℚ
  min_block : ℚ
  depends : List ℕ
  wait : Option ℤ

/-- Allocator state: the memoized horizon vectors (day offset to available
hours) and the task dicts in `task_info` insertion order. -/
structure SchedState where
  cache : ℕ → ℕ → ℚ
  infos : List TaskInfo

/-- Dict lookup of a task by uuid (uuids are unique in `task_info`). -/
def findInfo (st : SchedState) (u : ℕ) : Option TaskInfo :=
  st.infos.find? fun i => decide (i.uuid = u)

/-- The mutations of one allocation (src/taskcheck/parallel.py lines
161-170): decrement the task's remaining hours, decrement the shared
horizon vector at the current day, add to the task's scheduling dict. -/
def applyAlloc (st : SchedState) (u : ℕ) (key : ℕ) (d : ℕ) (a : ℚ) :
    SchedState where
  cache := fun k =>
    if k = key then fun n => if n = d then st.cache k n - a else st.cache k n
    else st.cache k
  infos := st.infos.map fun i =>
    if i.uuid = u then
      { i with
        remaining_hours := i.remaining_hours - a
        scheduling := fun n => if n = d then i.scheduling n + a else i.scheduling n }
    else i

/-- Urgency recomputation for one task (lines 125-136): replace the
estimated component and shift the total by the delta. -/
def recompOne (coeffs : Coeffs) (st : SchedState) (u : ℕ) : SchedState where
  cache := st.cache
  infos := st.infos.map fun i =>
    if i.uuid = u then
      let eu := compute_estimated_urgency i.remaining_hours coeffs
      { i with
        estimated_urgency := eu
        urgency := i.urgency - i.estimated_urgency + eu }
    else i

/-- The recompute loop over the current candidates (lines 124-136). -/
def recomputeUrgencies (coeffs : Coeffs) (st : SchedState) (live : List ℕ) :
    SchedState :=
  live.foldl (recompOne coeffs) st

/-- Urgency of a task as read through the candidate list. -/
def urgOf (st : SchedState) (u : ℕ) : ℚ :=
  ((findInfo st u).map TaskInfo.urgency).getD 0

/-- Stable insertion of an element into a key-sorted list: the new element
goes before the first strictly greater key, hence after earlier elements of
equal key. -/
def insertLe {α : Type} (key : α → ℚ) (x : α) : List α → List α
  | [] => [x]
  | y :: ys => if key x ≤ key y then x :: y :: ys else y :: insertLe key x ys

/-- Stable sort by a rational key, ascending.  Python `list.sort` is a
stable sort, and every stable sort by the same key computes the same list,
so this insertion sort is the embedding of
`tasks_remaining.sort(key=lambda x: -x["urgency"])` (line 139) with
`key := fun u => -urgency u`. -/
def isort {α : Type} (key : α → ℚ) : List α → List α
  | [] => []
  | x :: xs => insertLe key x (isort key xs)

/-- The candidate sort of the inner loop (lines 138-139). -/
def sortByUrgency (st : SchedState) (l : List ℕ) : List ℕ :=
  isort (fun u => -urgOf st u) l

/-- The walk over the sorted candidates (src/taskcheck/parallel.py lines
141-190).  `snapshot` is the list object being iterated (the sorted list,
unaffected by a later rebinding of `tasks_remaining`), `live` the current
value of `tasks_remaining`, `dr` the day's remaining hours and `al` the
`allocated` flag.  For each candidate: skip if its daily budget is not
positive; compute `min(remaining, daily_available, day_remaining)`; skip if
not positive; cap at `min_block`; apply the allocation; drop the task from
`tasks_remaining` when its remaining hours or daily budget are exhausted;
stop the walk when the day is exhausted. -/
def walkLoop (d : ℕ) : List ℕ → SchedState → List ℕ → ℚ → Bool →
    SchedState × List ℕ × ℚ × Bool
  | [], st, live, dr, al => (st, live, dr, al)
  | u :: rest, st, live, dr, al =>
    match findInfo st u with
    | none => walkLoop d rest st live dr al
    | some info =>
      let avail := st.cache info.timeMapKey d
      if avail ≤ 0 then walkLoop d rest st live dr al
      else
        let alloc0 := min (min info.remaining_hours avail) dr
        if alloc0 ≤ 0 then walkLoop d rest st live dr al
        else
          let alloc := if info.min_block < alloc0 then info.min_block else alloc0
          let st1 := applyAlloc st u info.timeMapKey d alloc
          let live1 :=
            if info.remaining_hours - alloc ≤ 0 ∨ st1.cache info.timeMapKey d ≤ 0 then
              live.filter fun v => decide (¬ v = u)
            else live
          let dr1 := dr - alloc
          if dr1 ≤ 0 then (st1, live1, dr1, true)
          else walkLoop d rest st1 live1 dr1 true

/-- The inner `while day_remaining_hours > 0 and tasks_remaining` loop
(lines 123-194), fuel-truncated: running out of fuel stops the loop early,
so every result is a reachable intermediate state of the Python loop.  The
`day_remaining_hours > 0 and tasks_remaining` guard is rendered as the
emptiness match plus the positivity test (same truth value).  One iteration
recomputes urgencies, sorts the candidates (in place: the sorted list is
both the iterated snapshot and the new `tasks_remaining`), walks them, and
stops if the walk allocated nothing. -/
def whileLoop (coeffs : Coeffs) (d : ℕ) : ℕ → SchedState → List ℕ → ℚ →
    SchedState × ℚ
  | 0, st, _, dr => (st, dr)
  | fuel + 1, st, live, dr =>
    match live with
    | [] => (st, dr)
    | u :: us =>
      if 0 < dr then
        let st1 := recomputeUrgencies coeffs st (u :: us)
        let sorted := sortByUrgency st1 (u :: us)
        match walkLoop d sorted st1 sorted dr false with
        | (st2, live2, dr2, al) =>
          if al then whileLoop coeffs d fuel st2 live2 dr2 else (st2, dr2)
      else (st, dr)

/-- Python `max(l) if l else 0`. -/
def pyMaxList (l : List ℚ) : ℚ :=
  match l with
  | [] => 0
  | x :: xs => xs.foldl max x

/-- The day budget (lines 96-106): the maximum over tasks of the day's
horizon entry, with each task's `today_used_hours` subtracted first on day
0. -/
def totalAvailable (st : SchedState) (d : ℕ) : ℚ :=
  pyMaxList (st.infos.map fun i =>
    if d = 0 then st.cache i.timeMapKey d - i.today_used_hours
    else st.cache i.timeMapKey d)

/-- The candidate assembly (lines 117-121): tasks with remaining work and a
positive horizon entry for the day; no other condition is applied. -/
def dayCandidates (st : SchedState) (d : ℕ) : List ℕ :=
  (st.infos.filter fun i =>
    decide (0 < i.remaining_hours) && decide (0 < st.cache i.timeMapKey d)).map
    TaskInfo.uuid

/-- One iteration of the day loop (lines 94-197): skip the day if the
budget is not positive, otherwise run the inner loop on the day's
candidates. -/
def runDay (coeffs : Coeffs) (fuel : ℕ) (st : SchedState) (d : ℕ) : SchedState :=
  let tah := totalAvailable st d
  if tah ≤ 0 then st
  else (whileLoop coeffs d fuel st (dayCandidates st d) tah).1

/-- The scheduling core of `check_tasks_parallel`: the day loop over
`range(days_ahead)`. -/
def runDays (coeffs : Coeffs) (fuel : ℕ) (st : SchedState) (daysAhead : ℕ) :
    SchedState :=
  (List.range daysAhead).foldl (runDay coeffs fuel) st

/-- Hours allocated to task `u` on day `d` (its scheduling dict entry). -/
def schedOf (st : SchedState) (u : ℕ) (d : ℕ) : ℚ :=
  ((findInfo st u).map fun i => i.scheduling d).getD 0

/-- Total hours allocated across all tasks on day `d`. -/
def daySched (st : SchedState) (d : ℕ) : ℚ :=
  (st.infos.map fun i => i.scheduling d).sum

/-- Per-task conserved quantity of C3: scheduled hours over the horizon
plus remaining hours, for each task in order. -/
def infosQ (D : ℕ) (st : SchedState) : List ℚ :=
  st.infos.map fun i => (∑ d in Finset.range D, i.scheduling d) + i.remaining_hours

/-! ### Concrete allocator scenarios -/

/-- A coefficient dict with a single entry of coefficient 0: estimated
urgencies are 0 throughout, so recomputation leaves urgencies unchanged. -/
def cexCoeffs : Coeffs := [(['P', '0', 'D', 'T', '1', 'H'], 0)]

/-- A `task_info` entry as built by initialization (lines 80-91):
`remaining_hours = estimated_hours`, empty scheduling dict,
`estimated_urgency = compute_estimated_urgency(estimated_hours, coeffs)`,
which is 0 under `cexCoeffs`. -/
def mkTask (u : ℕ) (urg rem mb : ℚ) (key : ℕ) (dep : List ℕ) (w : Option ℤ) :
    TaskInfo where
  uuid := u
  remaining_hours := rem
  today_used_hours := 0
  timeMapKey := key
  scheduling := fun _ => 0
  urgency := urg
  estimated_urgency := 0
  min_block := mb
  depends := dep
  wait := w

/-- C1 scenario: tasks 1 (urgency 10) and 2 (urgency 9), both with 2
remaining hours and `min_block` 1, on distinct time maps with 8 available
hours per day. -/
def c1Init : SchedState where
  cache := fun k => if k = 1 then fun _ => 8 else if k = 2 then fun _ => 8 else fun _ => 0
  infos := [mkTask 1 10 2 1 1 [] none, mkTask 2 9 2 1 2 [] none]

/-- C5 scenario: task 1 (urgency 10, 1 remaining hour) *depends on* task 2
(urgency 9, 2 remaining hours); both have 1 available hour per day on
distinct time maps, 3 days of horizon. -/
def c5Init : SchedState where
  cache := fun k => if k = 1 then fun _ => 1 else if k = 2 then fun _ => 1 else fun _ => 0
  infos := [mkTask 1 10 1 1 1 [2] none, mkTask 2 9 2 1 2 [] none]

/-- C6 scenario: a single task with a wait date 5 days away (`today` is day
number 0, so day offset 0 has date 0 < 5) and 8 available hours per day. -/
def c6Init : SchedState where
  cache := fun k => if k = 1 then fun _ => 8 else fun _ => 0
  infos := [mkTask 1 1 1 1 1 [] (some 5)]

/-- C7 scenario: tasks 1 and 2 name the *same* time-map key 7 (the memoized
horizon vector is one shared list object), with 1 available hour per day. -/
def c7Init : SchedState where
  cache := fun k => if k = 7 then fun _ => 1 else fun _ => 0
  infos := [mkTask 1 10 1 1 7 [] none, mkTask 2 1 5 5 7 [] none]

/-- C4 scenario: a single task whose available hours are negative (as
over-booked calendars can produce, see C9), so the day budget itself is
negative. -/
def c4Init : SchedState where
  cache := fun k => if k = 1 then fun _ => -1 else fun _ => 0
  infos := [mkTask 1 1 1 1 1 [] none]

/-- C10 scenario: two candidates with equal urgency 5 and distinct uuids. -/
def c10Init : SchedState where
  cache := fun _ => fun _ => 8
  infos := [mkTask 1 5 2 1 1 [] none, mkTask 2 5 2 1 2 [] none]

/-! ### Sequential allocator (check_tasks_sequentially /
schedule_task_on_day, src/taskcheck/__main__.py) -/

/-- State threaded through the sequential allocator's per-task day loop
(src/taskcheck/__main__.py lines 303-338).  The scheduling note's lines
`"{date}: {hours:.2f} hours"` are modeled as (date, hours) pairs; `used` is
the shared `used_hours` array indexed by day offset. -/
structure SeqSt where
  start_date : Option ℤ
  end_date : Option ℤ
  rem : ℚ
  is_starting : Bool
  note : List (ℤ × ℚ)
  used : ℕ → ℚ

/-- The body of `schedule_task_on_day` after the wait check (lines
183-210): clamp tiny positive employable hours to 0.01, set the start date
on the first visit, then either finish the task on this day or consume the
employable hours. -/
def schedule_core (ttm : ℕ → ℚ) (today : ℤ) (off : ℕ) (s : SeqSt) : SeqSt :=
  let eh0 := ttm off - s.used off
  let eh := if 0 < eh0 ∧ eh0 < 1 / 100 then 1 / 100 else eh0
  let current := today + (off : ℤ)
  let startDate := if s.is_starting then some current else s.start_date
  if s.rem ≤ eh + 1 / 100 then
    { start_date := startDate
      end_date := some current
      rem := 0
      is_starting := false
      note := s.note ++ [(current, s.rem)]
      used := fun j => if j = off then s.used j + s.rem else s.used j }
  else
    { start_date := startDate
      end_date := s.end_date
      rem := s.rem - eh
      is_starting := false
      note := s.note ++ [(current, eh)]
      used := fun j => if j = off then s.used j + eh else s.used j }

/-- Embedding of `schedule_task_on_day` (lines 161-210): when a wait date
is present and `current_date <= wait`, the day is skipped and the state is
returned unchanged. -/
def schedule_task_on_day (ttm : ℕ → ℚ) (today : ℤ) (w : Option ℤ) (off : ℕ)
    (s : SeqSt) : SeqSt :=
  match w with
  | some wd => if today + (off : ℤ) ≤ wd then s else schedule_core ttm today off s
  | none => schedule_core ttm today off s

/-- The per-task day loop of `check_tasks_sequentially` (lines 307-338):
each offset whose time map exceeds the used hours is scheduled; the loop
breaks as soon as an end date is set. -/
def seqTaskLoop (ttm : ℕ → ℚ) (today : ℤ) (w : Option ℤ) :
    List ℕ → SeqSt → SeqSt
  | [], s => s
  | off :: rest, s =>
    let s1 := if s.used off < ttm off then schedule_task_on_day ttm today w off s else s
    match s1.end_date with
    | some _ => s1
    | none => seqTaskLoop ttm today w rest s1

/-- The sequential allocator's day loop over the whole horizon for one
task. -/
def runSeqTask (ttm : ℕ → ℚ) (today : ℤ) (w : Option ℤ) (D : ℕ) (s : SeqSt) : SeqSt :=
  seqTaskLoop ttm today w (List.range D) s

/-- Initial per-task state of the sequential loop. -/
def seqS0 : SeqSt where
  start_date := none
  end_date := none
  rem := 2
  is_starting := true
  note := []
  used := fun _ => 0

lemma natToDecAux_fuel (n : ℕ) : ∀ f1 f2, n ≤ f1 → n ≤ f2 →
    natToDecAux f1 n = natToDecAux f2 n := by
  induction n using Nat.strong_induction_on with
  | _ n ih =>
    intro f1 f2 h1 h2
    match f1, f2 with
    | 0, 0 => rfl
    | 0, f2 + 1 =>
      have : n = 0 := Nat.le_zero.mp h1
      subst this
      simp [natToDecAux]
    | f1 + 1, 0 =>
      have : n = 0 := Nat.le_zero.mp h2
      subst this
      simp [natToDecAux]
    | f1 + 1, f2 + 1 =>
      by_cases h : n < 10
      · simp [natToDecAux, h]
      · have hlt : n / 10 < n := Nat.div_lt_self (by omega) (by omega)
        have := ih (n / 10) hlt f1 f2 (by omega) (by omega)
        simp [natToDecAux, h, this]

/-- The recurrence satisfied by decimal printing. -/
lemma natToDec_eq (n : ℕ) :
    natToDec n = if n < 10 then [digitChar n] else natToDec (n / 10) ++ [digitChar (n % 10)] := by
  by_cases h : n < 10
  · rw [if_pos h]
    match n, h with
    | 0, _ => rfl
    | k + 1, h => simp [natToDec, natToDecAux, h]
  · rw [if_neg h]
    have hn : ∃ k, n = k + 1 := ⟨n - 1, by omega⟩
    obtain ⟨k, rfl⟩ := hn
    show natToDecAux (k + 1) (k + 1) = _
    rw [natToDecAux, if_neg h]
    have hlt : (k + 1) / 10 < k + 1 := Nat.div_lt_self (by omega) (by omega)
    rw [natToDecAux_fuel ((k + 1) / 10) k ((k + 1) / 10) (by omega) (le_refl _)]
    rfl

lemma digitChar_toNat (k : ℕ) (hk : k < 10) : (digitChar k).toNat = 48 + k := by
  interval_cases k <;> decide

lemma natToDec_mem (n : ℕ) : ∀ c ∈ natToDec n, ∃ k, k < 10 ∧ c = digitChar k := by
  induction n using Nat.strong_induction_on with
  | _ n ih =>
    intro c hc
    rw [natToDec_eq] at hc
    by_cases h : n < 10
    · rw [if_pos h] at hc
      simp only [List.mem_singleton] at hc
      exact ⟨n, h, hc⟩
    · rw [if_neg h] at hc
      rcases List.mem_append.mp hc with h1 | h2
      · exact ih (n / 10) (Nat.div_lt_self (by omega) (by omega)) c h1
      · simp only [List.mem_singleton] at h2
        exact ⟨n % 10, Nat.mod_lt _ (by omega), h2⟩

lemma digitChar_ne (k : ℕ) (hk : k < 10) :
    digitChar k ≠ 'D' ∧ digitChar k ≠ 'T' ∧ digitChar k ≠ 'H' := by
  interval_cases k <;> refine ⟨by decide, by decide, by decide⟩

lemma natToDec_not_memD (n : ℕ) : 'D' ∉ natToDec n := by
  intro h
  obtain ⟨k, hk, hc⟩ := natToDec_mem n 'D' h
  exact (digitChar_ne k hk).1 hc.symm

lemma natToDec_not_memT (n : ℕ) : 'T' ∉ natToDec n := by
  intro h
  obtain ⟨k, hk, hc⟩ := natToDec_mem n 'T' h
  exact (digitChar_ne k hk).2.1 hc.symm

lemma natToDec_not_memH (n : ℕ) : 'H' ∉ natToDec n := by
  intro h
  obtain ⟨k, hk, hc⟩ := natToDec_mem n 'H' h
  exact (digitChar_ne k hk).2.2 hc.symm

lemma parseNat_natToDec (n : ℕ) : parseNat (natToDec n) = n := by
  induction n using Nat.strong_induction_on with
  | _ n ih =>
    rw [natToDec_eq]
    by_cases h : n < 10
    · rw [if_pos h]
      simp [parseNat, digitChar_toNat n h]
    · rw [if_neg h]
      have hrec := ih (n / 10) (Nat.div_lt_self (by omega) (by omega))
      simp only [parseNat, List.foldl_append, List.foldl_cons, List.foldl_nil] at hrec ⊢
      rw [hrec, digitChar_toNat (n % 10) (Nat.mod_lt _ (by omega))]
      omega

lemma splitAll_not_mem {c : Char} {l : List Char} (h : c ∉ l) :
    splitAll c l = [l] := by
  induction l with
  | nil => rfl
  | cons a rest ih =>
    have hne : a ≠ c := fun hac => h (hac ▸ List.mem_cons_self a rest)
    have hrest : c ∉ rest := fun hr => h (List.mem_cons_of_mem a hr)
    rw [splitAll, if_neg hne, ih hrest]

lemma splitAll_append {c : Char} {a b : List Char} (ha : c ∉ a) :
    splitAll c (a ++ c :: b) = a :: splitAll c b := by
  induction a with
  | nil => simp [splitAll]
  | cons x xs ih =>
    have hne : x ≠ c := fun hxc => ha (hxc ▸ List.mem_cons_self x xs)
    have hxs : c ∉ xs := fun hr => ha (List.mem_cons_of_mem x hr)
    rw [List.cons_append, splitAll, if_neg hne, ih hxs]

lemma splitAll_two {c : Char} {a b : List Char} (ha : c ∉ a) (hb : c ∉ b) :
    splitAll c (a ++ c :: b) = [a, b] := by
  rw [splitAll_append ha, splitAll_not_mem hb]

lemma PDTH_to_hours_canon (d h : ℕ) :
    PDTH_to_hours (canonPDTH d h) = d * 24 + h := by
  have hsplitD : splitAll 'D' (natToDec d ++ 'D' :: ('T' :: (natToDec h ++ ['H']))) =
      [natToDec d, 'T' :: (natToDec h ++ ['H'])] := by
    refine splitAll_two (natToDec_not_memD d) ?_
    intro hmem
    rcases List.mem_cons.mp hmem with h1 | h2
    · exact absurd h1 (by decide)
    · rcases List.mem_append.mp h2 with h3 | h4
      · exact natToDec_not_memD h h3
      · simp only [List.mem_singleton] at h4
        exact absurd h4 (by decide)
  have hsplitT : splitAll 'T' (natToDec h ++ ['H']) = [natToDec h ++ ['H']] := by
    refine splitAll_not_mem ?_
    intro hmem
    rcases List.mem_append.mp hmem with h3 | h4
    · exact natToDec_not_memT h h3
    · simp only [List.mem_singleton] at h4
      exact absurd h4 (by decide)
  have hsplitH : splitAll 'H' (natToDec h ++ ['H']) = [natToDec h, []] := by
    have : natToDec h ++ ['H'] = natToDec h ++ 'H' :: [] := rfl
    rw [this]
    exact splitAll_two (natToDec_not_memH h) (by simp)
  have ht0 : (canonPDTH d h).drop 1 =
      natToDec d ++ 'D' :: ('T' :: (natToDec h ++ ['H'])) := by
    simp [canonPDTH]
  have hmemD : 'D' ∈ natToDec d ++ 'D' :: ('T' :: (natToDec h ++ ['H'])) := by
    exact List.mem_append_right _ (List.mem_cons_self _ _)
  rw [PDTH_to_hours]
  simp only [ht0, if_pos hmemD, hsplitD]
  simp only [List.getD, List.get?, Option.getD_some]
  rw [hsplitT]
  simp only [List.getD, List.get?, Option.getD_some]
  rw [hsplitH]
  simp only [List.getD, List.get?, Option.getD_some]
  rw [parseNat_natToDec, parseNat_natToDec]
  have hmemH : 'H' ∈ 'T' :: (natToDec h ++ ['H']) := by
    refine List.mem_cons_of_mem _ (List.mem_append_right _ ?_)
    exact List.mem_singleton.mpr rfl
  rw [if_pos hmemH]

/-- C8: round-trip on canonical integer-hour duration strings. -/
theorem C8_roundtrip (d h : ℕ) (hh : h < 24) :
    hours_to_PDTH (PDTH_to_hours (canonPDTH d h)) = canonPDTH d h := by
  rw [PDTH_to_hours_canon]
  have h1 : (d * 24 + h) / 24 = d := by omega
  have h2 : (d * 24 + h) % 24 = h := by omega
  rw [hours_to_PDTH, h1, h2]
  rfl

/-- Witness for C8 at a concrete input. -/
theorem C8_roundtrip_witness :
    hours_to_PDTH (PDTH_to_hours (canonPDTH 2 5)) = canonPDTH 2 5 :=
  C8_roundtrip 2 5 (by norm_num)

lemma PDTH_to_hours_single (ch : Char) : PDTH_to_hours [ch] = 0 := by
  simp [PDTH_to_hours]

lemma keyDist_const (r : ℚ) (k : List Char) :
    keyDist r k = |(((pdth_char1 r).toNat : ℤ) - 48)| := by
  simp [keyDist, PDTH_to_hours_single]

lemma pyMinBy_const {α : Type} (f : α → ℤ) (a : α) (l : List α)
    (hf : ∀ x y, f x = f y) : pyMinBy f a l = a := by
  induction l generalizing a with
  | nil => rfl
  | cons x xs ih =>
    have : ¬ f x < f a := by rw [hf x a]; exact lt_irrefl _
    simp only [pyMinBy, List.foldl_cons, if_neg this]
    exact ih a

/-- The `[1]` indexing makes the selection key constant over the
coefficient keys, so the first key of the dict is always selected and its
coefficient multiplies the remaining hours. -/
lemma compute_estimated_urgency_head (r : ℚ) (k : List Char) (v : ℚ)
    (cs : Coeffs) : compute_estimated_urgency r ((k, v) :: cs) = v * r := by
  have hconst : pyMinBy (keyDist r) k (cs.map Prod.fst) = k :=
    pyMinBy_const _ _ _ (fun x y => by rw [keyDist_const, keyDist_const])
  simp [compute_estimated_urgency, hconst]

/-- C2: evaluation of `compute_estimated_urgency` at remaining hours 1 with
coefficient keys `P0DT10H` (coefficient 1) and `P0DT1H` (coefficient 5), in
the two insertion orders.  The claimed nearest-hour selection would pick
`P0DT1H` (hour component 1, nearest to 1) and return 5 in both orders; the
code returns the first key's coefficient in each case. -/
theorem C2_first_key_eval :
    compute_estimated_urgency 1
        [(['P', '0', 'D', 'T', '1', '0', 'H'], 1), (['P', '0', 'D', 'T', '1', 'H'], 5)] = 1 ∧
      compute_estimated_urgency 1
        [(['P', '0', 'D', 'T', '1', 'H'], 5), (['P', '0', 'D', 'T', '1', '0', 'H'], 1)] = 5 := by
  constructor
  · rw [compute_estimated_urgency_head]; norm_num
  · rw [compute_estimated_urgency_head]; norm_num

/-- C9: when the weekday is absent from the time map the result is 0, and
with the same event present in two calendars the result of the one-hour
window day is `1 - 2 = -1`: the gross-minus-blocked difference is not
floored at 0. -/
theorem C9_available_hours :
    (∀ (tm : TimeMap) (date : ℤ) (cals : List (List Ev)),
        tm (weekday date) = none → get_available_hours tm date cals = 0) ∧
      get_available_hours c9TimeMap 0 [c9Cal, c9Cal] = -1 := by
  constructor
  · intro tm date cals habsent
    simp [get_available_hours, habsent]
  · norm_num [get_available_hours, c9TimeMap, c9Cal, weekday, calBlocked, evBlocked,
      hoursToTime, hoursToDecimal, timeToDecimal, pytrunc, tmLt, tmMin, tmMax]
    simp only [show Int.toNat 10 = 10 from rfl, show Int.toNat 9 = 9 from rfl]
    norm_num

/-- Witness for the conditional part of C9: weekday 1 is absent from the
example time map and the result there is 0. -/
theorem C9_available_hours_witness :
    get_available_hours c9TimeMap 1 [c9Cal, c9Cal] = 0 :=
  C9_available_hours.1 c9TimeMap 1 [c9Cal, c9Cal] rfl

/-- C1: with fuel 1 the inner loop executes exactly one
recompute-sort-walk round and is then truncated, so the state below is the
state after the first walk of day 0.  Both tasks received an allocation in
that single walk: after task 1 (most urgent) accepted its `min_block` hour,
the walk went on and also gave task 2 an hour, instead of being abandoned
for a re-sort as the claim states. -/
theorem C1_two_allocations_in_one_walk :
    schedOf (runDay cexCoeffs 1 c1Init 0) 1 0 = 1 ∧
      schedOf (runDay cexCoeffs 1 c1Init 0) 2 0 = 1 := by
  norm_num [runDay, totalAvailable, pyMaxList, dayCandidates, whileLoop, walkLoop,
    recomputeUrgencies, recompOne, cexCoeffs, c1Init, mkTask, compute_estimated_urgency_head,
    sortByUrgency, isort, insertLe, urgOf, findInfo, applyAlloc, schedOf, min_def,
    List.find?, List.foldl, List.filter]

/-- C5: the candidate list of day 0 contains task 1 even though its
`depends` names task 2, whose remaining hours are 2 > 0; the run allocates
task 1 its single hour on day 0 while task 2 is still being allocated
through day 2.  So the earliest allocation date of the dependent task (day
0) precedes the latest allocation date of its dependency (day 2): no
dependency masking exists in this allocator. -/
theorem C5_dependent_allocated_before_dependency_cex :
    (findInfo c5Init 1).map TaskInfo.depends = some [2] ∧
      ((findInfo c5Init 2).map TaskInfo.remaining_hours).getD 0 = 2 ∧
      1 ∈ dayCandidates c5Init 0 ∧
      schedOf (runDays cexCoeffs 4 c5Init 3) 1 0 = 1 ∧
      schedOf (runDays cexCoeffs 4 c5Init 3) 2 2 = 1 := by
  refine ⟨by norm_num [findInfo, c5Init, mkTask, List.find?], ?_, ?_, ?_, ?_⟩
  · norm_num [findInfo, c5Init, mkTask, List.find?]
  · norm_num [dayCandidates, c5Init, mkTask, List.filter]
  · norm_num [runDays, List.range_succ, runDay, totalAvailable, pyMaxList, dayCandidates,
      whileLoop, walkLoop, recomputeUrgencies, recompOne, cexCoeffs, c5Init, mkTask,
      compute_estimated_urgency_head, sortByUrgency, isort, insertLe, urgOf, findInfo,
      applyAlloc, schedOf, min_def, List.find?, List.foldl, List.filter]
  · norm_num [runDays, List.range_succ, runDay, totalAvailable, pyMaxList, dayCandidates,
      whileLoop, walkLoop, recomputeUrgencies, recompOne, cexCoeffs, c5Init, mkTask,
      compute_estimated_urgency_head, sortByUrgency, isort, insertLe, urgOf, findInfo,
      applyAlloc, schedOf, min_def, List.find?, List.foldl, List.filter]

/-- C6 (parallel half): the parallel allocator reads no wait date; the
waiting task is allocated its hour on day offset 0, whose date (0) is
earlier than the task's wait date (5). -/
theorem C6_parallel_ignores_wait_cex :
    ((findInfo c6Init 1).map TaskInfo.wait).getD none = some 5 ∧
      schedOf (runDays cexCoeffs 2 c6Init 1) 1 0 = 1 ∧ (0 : ℤ) < 5 := by
  refine ⟨by norm_num [findInfo, c6Init, mkTask, List.find?], ?_, by norm_num⟩
  norm_num [runDays, List.range_succ, runDay, totalAvailable, pyMaxList, dayCandidates,
    whileLoop, walkLoop, recomputeUrgencies, recompOne, cexCoeffs, c6Init, mkTask,
    compute_estimated_urgency_head, sortByUrgency, isort, insertLe, urgOf, findInfo,
    applyAlloc, schedOf, min_def, List.find?, List.foldl, List.filter]

/-- C7: allocating task 1's hour on day 0 decrements the shared vector;
task 2 receives no allocation, yet the budget it observes through its own
`task_time_map` drops from 1 to 0. -/
theorem C7_shared_horizon_cex :
    (findInfo c7Init 1).map TaskInfo.timeMapKey = some 7 ∧
      (findInfo c7Init 2).map TaskInfo.timeMapKey = some 7 ∧
      schedOf (runDay cexCoeffs 2 c7Init 0) 2 0 = 0 ∧
      c7Init.cache 7 0 = 1 ∧
      (runDay cexCoeffs 2 c7Init 0).cache 7 0 = 0 := by
  refine ⟨by norm_num [findInfo, c7Init, mkTask, List.find?],
    by norm_num [findInfo, c7Init, mkTask, List.find?], ?_,
    by norm_num [c7Init], ?_⟩
  · norm_num [runDay, totalAvailable, pyMaxList, dayCandidates, whileLoop, walkLoop,
      recomputeUrgencies, recompOne, cexCoeffs, c7Init, mkTask,
      compute_estimated_urgency_head, sortByUrgency, isort, insertLe, urgOf, findInfo,
      applyAlloc, schedOf, min_def, List.find?, List.foldl, List.filter]
  · norm_num [runDay, totalAvailable, pyMaxList, dayCandidates, whileLoop, walkLoop,
      recomputeUrgencies, recompOne, cexCoeffs, c7Init, mkTask,
      compute_estimated_urgency_head, sortByUrgency, isort, insertLe, urgOf, findInfo,
      applyAlloc, schedOf, min_def, List.find?, List.foldl, List.filter]

/-- C4 counterexample to the claim as stated: on a day whose budget is
negative the allocator skips the day and allocates 0 hours, and 0 exceeds
the negative `total_available_hours`. -/
theorem C4_negative_budget_cex :
    ¬ daySched (runDays cexCoeffs 1 c4Init 1) 0 ≤ totalAvailable c4Init 0 := by
  have hrun : runDays cexCoeffs 1 c4Init 1 = c4Init := by
    norm_num [runDays, List.range_succ, runDay, totalAvailable, pyMaxList, c4Init, mkTask]
  rw [hrun]
  norm_num [daySched, totalAvailable, pyMaxList, c4Init, mkTask]

/-- C10: with equal urgencies the sort keeps the input order, whichever it
is — ties are not broken by uuid, and the two inputs, which carry the same
(urgency, uuid) pairs, sort to different outputs, so the pick order is not
a function of those pairs alone. -/
theorem C10_stable_ties_not_uuid_cex :
    urgOf c10Init 1 = urgOf c10Init 2 ∧
      sortByUrgency c10Init [2, 1] = [2, 1] ∧
      sortByUrgency c10Init [1, 2] = [1, 2] ∧ (1 : ℕ) < 2 := by
  refine ⟨by norm_num [urgOf, findInfo, c10Init, mkTask, List.find?], ?_, ?_, by norm_num⟩
  · norm_num [sortByUrgency, isort, insertLe, urgOf, findInfo, c10Init, mkTask, List.find?]
  · norm_num [sortByUrgency, isort, insertLe, urgOf, findInfo, c10Init, mkTask, List.find?]

/-! ### Invariant machinery for the allocator loops -/

lemma findInfo_mem {st : SchedState} {u : ℕ} {info : TaskInfo}
    (h : findInfo st u = some info) : info ∈ st.infos ∧ info.uuid = u := by
  refine ⟨List.mem_of_find?_eq_some h, ?_⟩
  have := List.find?_some h
  simpa using this

/-- Any predicate preserved by the allocation step is preserved by the
walk. -/
lemma walkLoop_inv (d : ℕ) (R : SchedState → Prop)
    (hA : ∀ st u info a, R st → findInfo st u = some info →
      R (applyAlloc st u info.timeMapKey d a)) :
    ∀ (snap : List ℕ) (st : SchedState) (live : List ℕ) (dr : ℚ) (al : Bool),
      R st → R (walkLoop d snap st live dr al).1 := by
  intro snap
  induction snap with
  | nil => intro st live dr al h; exact h
  | cons u rest ih =>
    intro st live dr al h
    rw [walkLoop]
    cases hfind : findInfo st u with
    | none => exact ih st live dr al h
    | some info =>
      simp only []
      split_ifs
      all_goals
        first
          | exact ih st live dr al h
          | exact hA st u info _ h hfind
          | exact ih _ _ _ _ (hA st u info _ h hfind)

/-- Any predicate preserved by the per-task urgency update is preserved by
the recompute loop. -/
lemma recomputeUrgencies_inv (coeffs : Coeffs) (R : SchedState → Prop)
    (hRec : ∀ st u, R st → R (recompOne coeffs st u)) :
    ∀ (live : List ℕ) (st : SchedState), R st → R (recomputeUrgencies coeffs st live) := by
  intro live
  induction live with
  | nil => intro st h; exact h
  | cons u rest ih =>
    intro st h
    exact ih (recompOne coeffs st u) (hRec st u h)

/-- Lift step preservation through the inner while loop. -/
lemma whileLoop_inv (coeffs : Coeffs) (d : ℕ) (R : SchedState → Prop)
    (hA : ∀ st u info a, R st → findInfo st u = some info →
      R (applyAlloc st u info.timeMapKey d a))
    (hRec : ∀ st u, R st → R (recompOne coeffs st u)) :
    ∀ (fuel : ℕ) (st : SchedState) (live : List ℕ) (dr : ℚ),
      R st → R (whileLoop coeffs d fuel st live dr).1 := by
  intro fuel
  induction fuel with
  | zero => intro st live dr h; exact h
  | succ fuel ih =>
    intro st live dr h
    rw [whileLoop.eq_def]
    cases live with
    | nil => exact h
    | cons u us =>
      simp only []
      split_ifs with h1 hal
      · exact ih _ _ _
          (walkLoop_inv d R hA _ _ _ _ _ (recomputeUrgencies_inv coeffs R hRec _ _ h))
      · exact walkLoop_inv d R hA _ _ _ _ _ (recomputeUrgencies_inv coeffs R hRec _ _ h)
      · exact h

/-- Lift step preservation through one day. -/
lemma runDay_inv (coeffs : Coeffs) (fuel : ℕ) (d : ℕ) (R : SchedState → Prop)
    (hA : ∀ st u info a, R st → findInfo st u = some info →
      R (applyAlloc st u info.timeMapKey d a))
    (hRec : ∀ st u, R st → R (recompOne coeffs st u)) :
    ∀ st : SchedState, R st → R (runDay coeffs fuel st d) := by
  intro st h
  rw [runDay]
  split_ifs with h1
  · exact h
  · exact whileLoop_inv coeffs d R hA hRec fuel st (dayCandidates st d) (totalAvailable st d) h

/-- Lift step preservation through the day loop, with the allocation-step
hypothesis available for each processed day. -/
lemma foldlDays_inv (coeffs : Coeffs) (fuel : ℕ) (R : SchedState → Prop)
    (hRec : ∀ st u, R st → R (recompOne coeffs st u)) :
    ∀ (l : List ℕ),
      (∀ d ∈ l, ∀ st u info a, R st → findInfo st u = some info →
        R (applyAlloc st u info.timeMapKey d a)) →
      ∀ st : SchedState, R st → R (l.foldl (runDay coeffs fuel) st) := by
  intro l
  induction l with
  | nil => intro _ st h; exact h
  | cons e rest ih =>
    intro hA st h
    rw [List.foldl_cons]
    refine ih (fun d hd => hA d (List.mem_cons_of_mem e hd)) _ ?_
    exact runDay_inv coeffs fuel e R (hA e (List.mem_cons_self e rest)) hRec st h

/-- Lift step preservation through `runDays`. -/
lemma runDays_inv (coeffs : Coeffs) (fuel : ℕ) (D : ℕ) (R : SchedState → Prop)
    (hA : ∀ d, d < D → ∀ st u info a, R st → findInfo st u = some info →
      R (applyAlloc st u info.timeMapKey d a))
    (hRec : ∀ st u, R st → R (recompOne coeffs st u)) :
    ∀ st : SchedState, R st → R (runDays coeffs fuel st D) := by
  intro st h
  exact foldlDays_inv coeffs fuel R hRec (List.range D)
    (fun d hd => hA d (List.mem_range.mp hd)) st h

/-! ### C3: conservation of scheduled plus remaining hours -/

lemma infosQ_applyAlloc (D : ℕ) (st : SchedState) (u key : ℕ) (d : ℕ) (a : ℚ)
    (hd : d < D) : infosQ D (applyAlloc st u key d a) = infosQ D st := by
  show List.map _ (st.infos.map _) = _
  rw [List.map_map]
  refine List.map_congr_left fun i _ => ?_
  by_cases hu : i.uuid = u
  · simp only [Function.comp_apply, if_pos hu]
    have hsum : ∑ x in Finset.range D, (if x = d then i.scheduling x + a else i.scheduling x)
        = (∑ x in Finset.range D, i.scheduling x) + a := by
      have hx : ∀ x, (if x = d then i.scheduling x + a else i.scheduling x)
          = i.scheduling x + (if x = d then a else 0) := by
        intro x; split_ifs <;> ring
      rw [Finset.sum_congr rfl fun x _ => hx x, Finset.sum_add_distrib]
      congr 1
      rw [Finset.sum_ite_eq' (Finset.range D) d fun _ => a]
      exact if_pos (Finset.mem_range.mpr hd)
    show (∑ x in Finset.range D, (if x = d then i.scheduling x + a else i.scheduling x)) +
        (i.remaining_hours - a) = _
    rw [hsum]
    ring
  · simp only [Function.comp_apply, if_neg hu]

lemma infosQ_recompOne (D : ℕ) (coeffs : Coeffs) (st : SchedState) (u : ℕ) :
    infosQ D (recompOne coeffs st u) = infosQ D st := by
  show List.map _ (st.infos.map _) = _
  rw [List.map_map]
  refine List.map_congr_left fun i _ => ?_
  by_cases hu : i.uuid = u <;> simp [Function.comp_apply, hu]

/-- C3: the allocation step adds the allocated amount to the scheduling map
entry of the day and subtracts it from the remaining hours, so each task's
scheduled-plus-remaining total is unchanged by every single allocation (for
any allocation within the horizon), and over any full run it stays equal to
its initial value, which initialization sets to `estimated_hours`
(line 82: `remaining_hours = estimated_hours`, empty scheduling dict). -/
theorem C3_scheduled_plus_remaining_conserved (D : ℕ) :
    (∀ (st : SchedState) (u key d : ℕ) (a : ℚ), d < D →
        infosQ D (applyAlloc st u key d a) = infosQ D st) ∧
      ∀ (coeffs : Coeffs) (fuel : ℕ) (init : SchedState),
        (∀ i ∈ init.infos, ∀ e, i.scheduling e = 0) →
        infosQ D (runDays coeffs fuel init D) = init.infos.map TaskInfo.remaining_hours := by
  constructor
  · intro st u key d a hd
    exact infosQ_applyAlloc D st u key d a hd
  · intro coeffs fuel init h0
    have hrun : infosQ D (runDays coeffs fuel init D) = infosQ D init :=
      runDays_inv coeffs fuel D (fun st => infosQ D st = infosQ D init)
        (fun d hd st u info a hst _ => by
          show infosQ D _ = infosQ D init
          rw [infosQ_applyAlloc D st u info.timeMapKey d a hd]; exact hst)
        (fun st u hst => by
          show infosQ D _ = infosQ D init
          rw [infosQ_recompOne]; exact hst) init rfl
    rw [hrun]
    refine List.map_congr_left fun i hi => ?_
    rw [Finset.sum_congr rfl fun e _ => h0 i hi e, Finset.sum_const_zero, zero_add]

/-- Witness for C3 at a concrete allocation and a concrete run. -/
theorem C3_scheduled_plus_remaining_conserved_witness :
    infosQ 1 (applyAlloc c1Init 1 1 0 1) = infosQ 1 c1Init ∧
      infosQ 1 (runDays cexCoeffs 1 c1Init 1) = c1Init.infos.map TaskInfo.remaining_hours :=
  ⟨(C3_scheduled_plus_remaining_conserved 1).1 c1Init 1 1 0 1 (by norm_num),
    (C3_scheduled_plus_remaining_conserved 1).2 cexCoeffs 1 c1Init (by
      intro i hi e
      simp only [c1Init, mkTask, List.mem_cons, List.not_mem_nil, or_false] at hi
      rcases hi with h | h <;> subst h <;> rfl)⟩

/-! ### Frame lemmas for the allocator steps -/

lemma applyAlloc_infos_map {α : Type} (st : SchedState) (u key : ℕ) (d : ℕ) (a : ℚ)
    (f : TaskInfo → α)
    (hf : ∀ i : TaskInfo, f { i with
        remaining_hours := i.remaining_hours - a
        scheduling := fun n => if n = d then i.scheduling n + a else i.scheduling n } = f i) :
    (applyAlloc st u key d a).infos.map f = st.infos.map f := by
  show (st.infos.map _).map f = _
  rw [List.map_map]
  refine List.map_congr_left fun i _ => ?_
  by_cases hu : i.uuid = u
  · simp only [Function.comp_apply, if_pos hu]
    exact hf i
  · simp only [Function.comp_apply, if_neg hu]

lemma recompOne_infos_map {α : Type} (coeffs : Coeffs) (st : SchedState) (u : ℕ)
    (f : TaskInfo → α)
    (hf : ∀ (i : TaskInfo) (eu : ℚ), f { i with
        estimated_urgency := eu
        urgency := i.urgency - i.estimated_urgency + eu } = f i) :
    (recompOne coeffs st u).infos.map f = st.infos.map f := by
  show (st.infos.map _).map f = _
  rw [List.map_map]
  refine List.map_congr_left fun i _ => ?_
  by_cases hu : i.uuid = u
  · simp only [Function.comp_apply, if_pos hu]
    exact hf i _
  · simp only [Function.comp_apply, if_neg hu]

lemma applyAlloc_cache_ne (st : SchedState) (u key : ℕ) (d : ℕ) (a : ℚ) (k : ℕ)
    (hne : k ≠ key) : (applyAlloc st u key d a).cache k = st.cache k := by
  show (if k = key then _ else st.cache k) = st.cache k
  rw [if_neg hne]

lemma applyAlloc_cache_day_ne (st : SchedState) (u key : ℕ) (d : ℕ) (a : ℚ) (k j : ℕ)
    (hne : j ≠ d) : (applyAlloc st u key d a).cache k j = st.cache k j := by
  show (if k = key then fun n => if n = d then st.cache k n - a else st.cache k n
      else st.cache k) j = st.cache k j
  split_ifs with h1
  · simp only [if_neg hne]
  · rfl

lemma recompOne_cache (coeffs : Coeffs) (st : SchedState) (u : ℕ) :
    (recompOne coeffs st u).cache = st.cache := rfl

/-! ### C4: day-budget accounting -/

lemma sum_sched_update (u d : ℕ) (a : ℚ) :
    ∀ l : List TaskInfo, (l.map TaskInfo.uuid).Nodup → (∃ i ∈ l, i.uuid = u) →
      (l.map (Function.comp (fun i => i.scheduling d) fun i =>
        if i.uuid = u then { i with
          remaining_hours := i.remaining_hours - a
          scheduling := fun n => if n = d then i.scheduling n + a else i.scheduling n }
        else i)).sum = (l.map fun i => i.scheduling d).sum + a := by
  intro l
  induction l with
  | nil => intro _ hex; simp at hex
  | cons i rest ih =>
    intro hnd hex
    rw [List.map_cons, List.nodup_cons] at hnd
    obtain ⟨hni, hnd2⟩ := hnd
    rw [List.map_cons, List.map_cons, List.sum_cons, List.sum_cons]
    by_cases hu : i.uuid = u
    · have hrest : ∀ j ∈ rest, j.uuid ≠ u := by
        intro j hj hju
        exact hni (by rw [hu, ← hju]; exact List.mem_map_of_mem _ hj)
      have hmap : rest.map (Function.comp (fun i => i.scheduling d) fun i =>
          if i.uuid = u then { i with
            remaining_hours := i.remaining_hours - a
            scheduling := fun n => if n = d then i.scheduling n + a else i.scheduling n }
          else i) = rest.map fun i => i.scheduling d := by
        refine List.map_congr_left fun j hj => ?_
        simp only [Function.comp_apply, if_neg (hrest j hj)]
      rw [hmap]
      simp only [Function.comp_apply, if_pos hu, eq_self_iff_true, if_true]
      ring
    · have hex2 : ∃ j ∈ rest, j.uuid = u := by
        rcases hex with ⟨j, hj, hju⟩
        rcases List.mem_cons.mp hj with h | h
        · exact absurd (h ▸ hju) hu
        · exact ⟨j, h, hju⟩
      rw [ih hnd2 hex2]
      simp only [Function.comp_apply, if_neg hu]
      ring

lemma daySched_applyAlloc (st : SchedState) (u key : ℕ) (d : ℕ) (a : ℚ)
    (hnd : (st.infos.map TaskInfo.uuid).Nodup) (hex : ∃ i ∈ st.infos, i.uuid = u) :
    daySched (applyAlloc st u key d a) d = daySched st d + a := by
  show ((st.infos.map _).map _).sum = (st.infos.map _).sum + a
  rw [List.map_map]
  exact sum_sched_update u d a st.infos hnd hex

/-- Accounting through the walk: the total allocated on the day plus the
remaining day budget is conserved, the budget never becomes negative, and
the uuid sequence is unchanged. -/
lemma walkLoop_budget (d : ℕ) :
    ∀ (snap : List ℕ) (st : SchedState) (live : List ℕ) (dr : ℚ) (al : Bool),
      (st.infos.map TaskInfo.uuid).Nodup →
      daySched (walkLoop d snap st live dr al).1 d + (walkLoop d snap st live dr al).2.2.1
          = daySched st d + dr ∧
        (0 ≤ dr → 0 ≤ (walkLoop d snap st live dr al).2.2.1) ∧
        (walkLoop d snap st live dr al).1.infos.map TaskInfo.uuid
          = st.infos.map TaskInfo.uuid := by
  intro snap
  induction snap with
  | nil => intro st live dr al hnd; exact ⟨rfl, fun h => h, rfl⟩
  | cons u rest ih =>
    intro st live dr al hnd
    rw [walkLoop]
    cases hfind : findInfo st u with
    | none => exact ih st live dr al hnd
    | some info =>
      simp only []
      have hex : ∃ i ∈ st.infos, i.uuid = u :=
        ⟨info, (findInfo_mem hfind).1, (findInfo_mem hfind).2⟩
      have hmapA : ∀ A : ℚ, (applyAlloc st u info.timeMapKey d A).infos.map TaskInfo.uuid
          = st.infos.map TaskInfo.uuid :=
        fun A => applyAlloc_infos_map st u info.timeMapKey d A TaskInfo.uuid fun i => rfl
      have leaf : ∀ (A : ℚ), A ≤ dr →
          daySched (applyAlloc st u info.timeMapKey d A) d + (dr - A) = daySched st d + dr ∧
            (0 ≤ dr → 0 ≤ dr - A) ∧
            (applyAlloc st u info.timeMapKey d A).infos.map TaskInfo.uuid
              = st.infos.map TaskInfo.uuid := by
        intro A hA
        refine ⟨?_, fun _ => sub_nonneg.mpr hA, hmapA A⟩
        rw [daySched_applyAlloc st u info.timeMapKey d A hnd hex]
        ring
      have step : ∀ (A : ℚ) (live2 : List ℕ), A ≤ dr →
          daySched (walkLoop d rest (applyAlloc st u info.timeMapKey d A) live2 (dr - A)
                true).1 d +
              (walkLoop d rest (applyAlloc st u info.timeMapKey d A) live2 (dr - A) true).2.2.1
            = daySched st d + dr ∧
          (0 ≤ dr →
            0 ≤ (walkLoop d rest (applyAlloc st u info.timeMapKey d A) live2 (dr - A)
              true).2.2.1) ∧
          (walkLoop d rest (applyAlloc st u info.timeMapKey d A) live2 (dr - A)
            true).1.infos.map TaskInfo.uuid = st.infos.map TaskInfo.uuid := by
        intro A live2 hA
        obtain ⟨ha, hb, hc⟩ := ih (applyAlloc st u info.timeMapKey d A) live2 (dr - A) true
          (by rw [hmapA A]; exact hnd)
        refine ⟨?_, fun _ => hb (sub_nonneg.mpr hA), hc.trans (hmapA A)⟩
        rw [ha, daySched_applyAlloc st u info.timeMapKey d A hnd hex]
        ring
      split_ifs
      all_goals
        first
          | exact ih st live dr al hnd
          | exact leaf _ (le_trans (le_of_lt (by assumption)) (min_le_right _ _))
          | exact leaf _ (min_le_right _ _)
          | exact step _ _ (le_trans (le_of_lt (by assumption)) (min_le_right _ _))
          | exact step _ _ (min_le_right _ _)

lemma recomputeUrgencies_infos_map {α : Type} (coeffs : Coeffs) (f : TaskInfo → α)
    (hf : ∀ (i : TaskInfo) (eu : ℚ), f { i with
        estimated_urgency := eu
        urgency := i.urgency - i.estimated_urgency + eu } = f i) :
    ∀ (live : List ℕ) (st : SchedState),
      (recomputeUrgencies coeffs st live).infos.map f = st.infos.map f := by
  intro live
  induction live with
  | nil => intro st; rfl
  | cons u rest ih =>
    intro st
    show (recomputeUrgencies coeffs (recompOne coeffs st u) rest).infos.map f = _
    rw [ih, recompOne_infos_map coeffs st u f hf]

/-- Accounting through the inner while loop. -/
lemma whileLoop_budget (coeffs : Coeffs) (d : ℕ) :
    ∀ (fuel : ℕ) (st : SchedState) (live : List ℕ) (dr : ℚ),
      (st.infos.map TaskInfo.uuid).Nodup →
      daySched (whileLoop coeffs d fuel st live dr).1 d + (whileLoop coeffs d fuel st live dr).2
          = daySched st d + dr ∧
        (0 ≤ dr → 0 ≤ (whileLoop coeffs d fuel st live dr).2) ∧
        (whileLoop coeffs d fuel st live dr).1.infos.map TaskInfo.uuid
          = st.infos.map TaskInfo.uuid := by
  intro fuel
  induction fuel with
  | zero => intro st live dr hnd; exact ⟨rfl, fun h => h, rfl⟩
  | succ fuel ih =>
    intro st live dr hnd
    rw [whileLoop.eq_def]
    cases live with
    | nil => exact ⟨rfl, fun h => h, rfl⟩
    | cons u us =>
      simp only []
      set st1 := recomputeUrgencies coeffs st (u :: us) with hst1
      have hm1 : st1.infos.map TaskInfo.uuid = st.infos.map TaskInfo.uuid :=
        recomputeUrgencies_infos_map coeffs TaskInfo.uuid (fun i eu => rfl) (u :: us) st
      have hd1 : daySched st1 d = daySched st d :=
        congrArg List.sum
          (recomputeUrgencies_infos_map coeffs (fun i => i.scheduling d) (fun i eu => rfl)
            (u :: us) st)
      have hnd1 : (st1.infos.map TaskInfo.uuid).Nodup := by rw [hm1]; exact hnd
      obtain ⟨hwa, hwb, hwc⟩ := walkLoop_budget d (sortByUrgency st1 (u :: us)) st1
        (sortByUrgency st1 (u :: us)) dr false hnd1
      split_ifs with h1 hal
      · obtain ⟨ha2, hb2, hc2⟩ := ih
          (walkLoop d (sortByUrgency st1 (u :: us)) st1 (sortByUrgency st1 (u :: us)) dr
            false).1
          (walkLoop d (sortByUrgency st1 (u :: us)) st1 (sortByUrgency st1 (u :: us)) dr
            false).2.1
          (walkLoop d (sortByUrgency st1 (u :: us)) st1 (sortByUrgency st1 (u :: us)) dr
            false).2.2.1
          (by rw [hwc]; exact hnd1)
        refine ⟨?_, fun hdr => hb2 (hwb (le_of_lt h1)), hc2.trans (hwc.trans hm1)⟩
        rw [ha2, hwa, hd1]
      · exact ⟨by rw [hwa, hd1], fun hdr => hwb (le_of_lt h1), hwc.trans hm1⟩
      · exact ⟨rfl, fun h => h, rfl⟩

lemma runDay_daySched_le (coeffs : Coeffs) (fuel : ℕ) (st : SchedState) (d : ℕ)
    (hnd : (st.infos.map TaskInfo.uuid).Nodup) :
    daySched (runDay coeffs fuel st d) d ≤ daySched st d + max (totalAvailable st d) 0 ∧
      (runDay coeffs fuel st d).infos.map TaskInfo.uuid = st.infos.map TaskInfo.uuid := by
  rw [runDay]
  split_ifs with h1
  · exact ⟨le_add_of_nonneg_right (le_max_right _ _), rfl⟩
  · obtain ⟨ha, hb, hc⟩ := whileLoop_budget coeffs d fuel st (dayCandidates st d)
      (totalAvailable st d) hnd
    refine ⟨?_, hc⟩
    have h0 : 0 ≤ (whileLoop coeffs d fuel st (dayCandidates st d) (totalAvailable st d)).2 :=
      hb (le_of_lt (lt_of_not_le h1))
    have hmax := le_max_left (totalAvailable st d) (0 : ℚ)
    linarith

/-- Processing a day other than `d` changes nothing that day `d`'s budget
or allocations depend on. -/
lemma runDay_frame (coeffs : Coeffs) (fuel : ℕ) (e d : ℕ) (hne : e ≠ d)
    (init : SchedState) (st : SchedState)
    (h : (∀ kk, st.cache kk d = init.cache kk d) ∧
      st.infos.map (fun i => (i.timeMapKey, i.today_used_hours))
        = init.infos.map (fun i => (i.timeMapKey, i.today_used_hours)) ∧
      st.infos.map (fun i => i.scheduling d) = init.infos.map (fun i => i.scheduling d) ∧
      st.infos.map TaskInfo.uuid = init.infos.map TaskInfo.uuid) :
    (∀ kk, (runDay coeffs fuel st e).cache kk d = init.cache kk d) ∧
      (runDay coeffs fuel st e).infos.map (fun i => (i.timeMapKey, i.today_used_hours))
        = init.infos.map (fun i => (i.timeMapKey, i.today_used_hours)) ∧
      (runDay coeffs fuel st e).infos.map (fun i => i.scheduling d)
        = init.infos.map (fun i => i.scheduling d) ∧
      (runDay coeffs fuel st e).infos.map TaskInfo.uuid = init.infos.map TaskInfo.uuid := by
  refine runDay_inv coeffs fuel e
    (fun s => (∀ kk, s.cache kk d = init.cache kk d) ∧
      s.infos.map (fun i => (i.timeMapKey, i.today_used_hours))
        = init.infos.map (fun i => (i.timeMapKey, i.today_used_hours)) ∧
      s.infos.map (fun i => i.scheduling d) = init.infos.map (fun i => i.scheduling d) ∧
      s.infos.map TaskInfo.uuid = init.infos.map TaskInfo.uuid) ?_ ?_ st h
  · intro s u info a hs hfind
    obtain ⟨hc, hm, hsc, hu⟩ := hs
    refine ⟨?_, ?_, ?_, ?_⟩
    · intro kk
      rw [applyAlloc_cache_day_ne s u info.timeMapKey e a kk d (Ne.symm hne)]
      exact hc kk
    · rw [applyAlloc_infos_map s u info.timeMapKey e a
        (fun i => (i.timeMapKey, i.today_used_hours)) fun i => rfl]
      exact hm
    · rw [applyAlloc_infos_map s u info.timeMapKey e a (fun i => i.scheduling d) fun i => ?_]
      · exact hsc
      · show (if d = e then i.scheduling d + a else i.scheduling d) = i.scheduling d
        rw [if_neg (Ne.symm hne)]
    · rw [applyAlloc_infos_map s u info.timeMapKey e a TaskInfo.uuid fun i => rfl]
      exact hu
  · intro s u hs
    obtain ⟨hc, hm, hsc, hu⟩ := hs
    refine ⟨?_, ?_, ?_, ?_⟩
    · intro kk
      rw [recompOne_cache]
      exact hc kk
    · rw [recompOne_infos_map coeffs s u
        (fun i => (i.timeMapKey, i.today_used_hours)) fun i eu => rfl]
      exact hm
    · rw [recompOne_infos_map coeffs s u (fun i => i.scheduling d) fun i eu => rfl]
      exact hsc
    · rw [recompOne_infos_map coeffs s u TaskInfo.uuid fun i eu => rfl]
      exact hu

lemma totalAvailable_congr (st init : SchedState) (d : ℕ)
    (hc : ∀ kk, st.cache kk d = init.cache kk d)
    (hm : st.infos.map (fun i => (i.timeMapKey, i.today_used_hours))
      = init.infos.map (fun i => (i.timeMapKey, i.today_used_hours))) :
    totalAvailable st d = totalAvailable init d := by
  unfold totalAvailable
  congr 1
  have hfac : st.infos.map (fun i =>
      if d = 0 then st.cache i.timeMapKey d - i.today_used_hours else st.cache i.timeMapKey d)
      = (st.infos.map fun i => (i.timeMapKey, i.today_used_hours)).map
          (fun p => if d = 0 then init.cache p.1 d - p.2 else init.cache p.1 d) := by
    rw [List.map_map]
    refine List.map_congr_left fun i _ => ?_
    simp only [Function.comp_apply]
    rw [hc i.timeMapKey]
  rw [hfac, hm, List.map_map]
  refine List.map_congr_left fun i _ => ?_
  simp only [Function.comp_apply]

lemma daySched_congr (st init : SchedState) (d : ℕ)
    (hs : st.infos.map (fun i => i.scheduling d) = init.infos.map fun i => i.scheduling d) :
    daySched st d = daySched init d :=
  congrArg List.sum hs

lemma foldl_runDay_sched_eq (coeffs : Coeffs) (fuel d : ℕ) :
    ∀ (l : List ℕ), d ∉ l → ∀ st : SchedState,
      daySched (l.foldl (runDay coeffs fuel) st) d = daySched st d := by
  intro l hdl st
  refine congrArg List.sum
    (foldlDays_inv coeffs fuel
      (fun s => s.infos.map (fun i => i.scheduling d) = st.infos.map fun i => i.scheduling d)
      ?_ l ?_ st rfl)
  · intro s u hs
    show (recompOne coeffs s u).infos.map _ = _
    rw [recompOne_infos_map coeffs s u (fun i => i.scheduling d) fun i eu => rfl]
    exact hs
  · intro e he s u info a hs hfind
    have hed : e ≠ d := fun hc => hdl (hc ▸ he)
    show (applyAlloc s u info.timeMapKey e a).infos.map _ = _
    rw [applyAlloc_infos_map s u info.timeMapKey e a (fun i => i.scheduling d) fun i => ?_]
    · exact hs
    · show (if d = e then i.scheduling d + a else i.scheduling d) = i.scheduling d
      rw [if_neg (Ne.symm hed)]

lemma foldl_runDay_bound (coeffs : Coeffs) (fuel d : ℕ) (init : SchedState)
    (hnd : (init.infos.map TaskInfo.uuid).Nodup) :
    ∀ (l : List ℕ), l.Nodup → ∀ st : SchedState,
      (∀ kk, st.cache kk d = init.cache kk d) →
      st.infos.map (fun i => (i.timeMapKey, i.today_used_hours))
        = init.infos.map (fun i => (i.timeMapKey, i.today_used_hours)) →
      st.infos.map (fun i => i.scheduling d) = init.infos.map (fun i => i.scheduling d) →
      st.infos.map TaskInfo.uuid = init.infos.map TaskInfo.uuid →
      daySched (l.foldl (runDay coeffs fuel) st) d
        ≤ daySched init d + max (totalAvailable init d) 0 := by
  intro l
  induction l with
  | nil =>
    intro _ st hc hm hs hu
    rw [List.foldl_nil, daySched_congr st init d hs]
    exact le_add_of_nonneg_right (le_max_right _ _)
  | cons e rest ih =>
    intro hl st hc hm hs hu
    rw [List.nodup_cons] at hl
    obtain ⟨hel, hrest⟩ := hl
    rw [List.foldl_cons]
    by_cases hed : e = d
    · subst hed
      have hndst : (st.infos.map TaskInfo.uuid).Nodup := by rw [hu]; exact hnd
      obtain ⟨hble, hmap⟩ := runDay_daySched_le coeffs fuel st e hndst
      rw [foldl_runDay_sched_eq coeffs fuel e rest hel (runDay coeffs fuel st e)]
      calc daySched (runDay coeffs fuel st e) e
          ≤ daySched st e + max (totalAvailable st e) 0 := hble
        _ = daySched init e + max (totalAvailable init e) 0 := by
            rw [daySched_congr st init e hs, totalAvailable_congr st init e hc hm]
    · obtain ⟨hc2, hm2, hs2, hu2⟩ :=
        runDay_frame coeffs fuel e d hed init st ⟨hc, hm, hs, hu⟩
      exact ih hrest (runDay coeffs fuel st e) hc2 hm2 hs2 hu2

/-- C4 (amended): the total hours allocated across all tasks on day `d`
never exceed the day budget when that budget is nonnegative — in general
they are bounded by `max(total_available_hours(d), 0)`, because the day
is skipped entirely when the budget is not positive. -/
theorem C4_day_allocation_bounded (coeffs : Coeffs) (fuel D d : ℕ) (init : SchedState)
    (hnd : (init.infos.map TaskInfo.uuid).Nodup)
    (h0 : ∀ i ∈ init.infos, i.scheduling d = 0) :
    daySched (runDays coeffs fuel init D) d ≤ max (totalAvailable init d) 0 := by
  have hb := foldl_runDay_bound coeffs fuel d init hnd (List.range D) (by apply List.nodup_range)
    init (fun _ => rfl) rfl rfl rfl
  have h00 : daySched init d = 0 := by
    refine List.sum_eq_zero fun q hq => ?_
    obtain ⟨i, hi, hqi⟩ := List.mem_map.mp hq
    rw [← hqi]
    exact h0 i hi
  rw [runDays] at *
  calc daySched ((List.range D).foldl (runDay coeffs fuel) init) d
      ≤ daySched init d + max (totalAvailable init d) 0 := hb
    _ = max (totalAvailable init d) 0 := by rw [h00, zero_add]

/-- Witness for C4 at a concrete run. -/
theorem C4_day_allocation_bounded_witness :
    daySched (runDays cexCoeffs 1 c1Init 1) 0 ≤ max (totalAvailable c1Init 0) 0 :=
  C4_day_allocation_bounded cexCoeffs 1 1 0 c1Init
    (by norm_num [c1Init, mkTask])
    (by
      intro i hi
      simp only [c1Init, mkTask, List.mem_cons, List.not_mem_nil, or_false] at hi
      rcases hi with h | h <;> subst h <;> rfl)

/-! ### C5 (amended): the candidate filter reads only remaining hours and
the day budget -/

/-- C5 (amended): on every day, a task is among the candidates exactly when
its remaining hours and its day budget are positive — the `depends` field
(like `wait`) takes no part in the filter, so no dependency masking
happens. -/
theorem C5_candidates_ignore_depends (st : SchedState) (d : ℕ) (i : TaskInfo)
    (hnd : (st.infos.map TaskInfo.uuid).Nodup) (hi : i ∈ st.infos) :
    i.uuid ∈ dayCandidates st d ↔
      0 < i.remaining_hours ∧ 0 < st.cache i.timeMapKey d := by
  unfold dayCandidates
  constructor
  · intro hmem
    rw [List.mem_map] at hmem
    obtain ⟨j, hj, hju⟩ := hmem
    rw [List.mem_filter] at hj
    obtain ⟨hjmem, hjp⟩ := hj
    have hji : j = i := List.inj_on_of_nodup_map hnd hjmem hi hju
    subst hji
    simpa using hjp
  · rintro ⟨h1, h2⟩
    rw [List.mem_map]
    exact ⟨i, List.mem_filter.mpr ⟨hi, by simp [h1, h2]⟩, rfl⟩

/-- Witness for the amended C5 at the dependency scenario: the dependent
task is a candidate on day 0 purely by the two positivity conditions. -/
theorem C5_candidates_ignore_depends_witness :
    (mkTask 1 10 1 1 1 [2] none).uuid ∈ dayCandidates c5Init 0 ↔
      0 < (mkTask 1 10 1 1 1 [2] none).remaining_hours ∧
        0 < c5Init.cache (mkTask 1 10 1 1 1 [2] none).timeMapKey 0 :=
  C5_candidates_ignore_depends c5Init 0 (mkTask 1 10 1 1 1 [2] none)
    (by norm_num [c5Init, mkTask]) (by simp [c5Init])

/-! ### C7 (amended): budgets are independent across distinct time-map
keys -/

/-- C7 (amended): one allocation step decrements the memoized horizon
vector of the allocating task's time-map key at the current day, and
touches no other key: every task whose `time_map` key differs from the
allocating task's observes a completely unchanged `task_time_map` vector,
and the step changes no task's key, so post-state views go through the
same keys.  (Tasks naming the identical key share one vector and observe
the decrement — that is the counterexample.) -/
theorem C7_allocation_frame_distinct_keys (st : SchedState) (u key d : ℕ) (a : ℚ) :
    (applyAlloc st u key d a).cache key d = st.cache key d - a ∧
      (∀ j : TaskInfo, j.timeMapKey ≠ key →
        (applyAlloc st u key d a).cache j.timeMapKey = st.cache j.timeMapKey) ∧
      (applyAlloc st u key d a).infos.map TaskInfo.timeMapKey
        = st.infos.map TaskInfo.timeMapKey := by
  refine ⟨by simp [applyAlloc], ?_, ?_⟩
  · intro j hj
    exact applyAlloc_cache_ne st u key d a j.timeMapKey hj
  · exact applyAlloc_infos_map st u key d a TaskInfo.timeMapKey fun i => rfl

/-- Witness for the amended C7 at the C1 scenario: allocating one hour to
task 1 (key 1) on day 0 drops that key's budget from 8 to 7, while task 2,
which names key 2, observes an unchanged vector. -/
theorem C7_allocation_frame_distinct_keys_witness :
    (applyAlloc c1Init 1 1 0 1).cache 1 0 = c1Init.cache 1 0 - 1 ∧
      (applyAlloc c1Init 1 1 0 1).cache (mkTask 2 9 2 1 2 [] none).timeMapKey
        = c1Init.cache (mkTask 2 9 2 1 2 [] none).timeMapKey :=
  ⟨(C7_allocation_frame_distinct_keys c1Init 1 1 0 1).1,
    (C7_allocation_frame_distinct_keys c1Init 1 1 0 1).2.1 (mkTask 2 9 2 1 2 [] none)
      (by norm_num [mkTask])⟩

/-- Corollary at the run level: a full run never touches the horizon
vector of a time-map key that no task names. -/
lemma runDays_unnamed_key_cache_eq (coeffs : Coeffs) (fuel D k : ℕ) (init : SchedState)
    (hk : ∀ i ∈ init.infos, i.timeMapKey ≠ k) :
    (runDays coeffs fuel init D).cache k = init.cache k := by
  refine (runDays_inv coeffs fuel D
    (fun st => st.cache k = init.cache k ∧
      st.infos.map TaskInfo.timeMapKey = init.infos.map TaskInfo.timeMapKey)
    ?_ ?_ init ⟨rfl, rfl⟩).1
  · intro d hd st u info a hst hfind
    obtain ⟨hc, hm⟩ := hst
    refine ⟨?_, ?_⟩
    · have hmem := (findInfo_mem hfind).1
      have hkk : info.timeMapKey ≠ k := by
        have hin : info.timeMapKey ∈ st.infos.map TaskInfo.timeMapKey :=
          List.mem_map_of_mem _ hmem
        rw [hm] at hin
        obtain ⟨j, hj, hjk⟩ := List.mem_map.mp hin
        rw [← hjk]
        exact hk j hj
      rw [applyAlloc_cache_ne st u info.timeMapKey d a k (fun he => hkk he.symm)]
      exact hc
    · rw [applyAlloc_infos_map st u info.timeMapKey d a TaskInfo.timeMapKey fun i => rfl]
      exact hm
  · intro st u hst
    obtain ⟨hc, hm⟩ := hst
    refine ⟨by rw [recompOne_cache]; exact hc, ?_⟩
    rw [recompOne_infos_map coeffs st u TaskInfo.timeMapKey fun i eu => rfl]
    exact hm

/-- Instance of the run-level corollary: key 99 is named by no task of the
C1 scenario and its cached vector is untouched by the run. -/
lemma runDays_unnamed_key_cache_eq_example :
    (runDays cexCoeffs 1 c1Init 1).cache 99 = c1Init.cache 99 :=
  runDays_unnamed_key_cache_eq cexCoeffs 1 1 99 c1Init (by
    intro i hi
    simp only [c1Init, mkTask, List.mem_cons, List.not_mem_nil, or_false] at hi
    rcases hi with h | h <;> subst h <;> norm_num)

/-! ### C10 (amended): the candidate sort is stable by urgency alone -/

lemma insertLe_perm {α : Type} (key : α → ℚ) (x : α) (l : List α) :
    (insertLe key x l).Perm (x :: l) := by
  induction l with
  | nil => exact List.Perm.refl _
  | cons y ys ih =>
    rw [insertLe]
    split_ifs with h
    · exact List.Perm.refl _
    · exact (List.Perm.cons y ih).trans (List.Perm.swap x y ys)

lemma isort_perm {α : Type} (key : α → ℚ) (l : List α) : (isort key l).Perm l := by
  induction l with
  | nil => exact List.Perm.refl _
  | cons x xs ih =>
    exact (insertLe_perm key x (isort key xs)).trans (List.Perm.cons x ih)

lemma insertLe_sorted {α : Type} (key : α → ℚ) (x : α) (l : List α)
    (hl : l.Sorted fun a b => key a ≤ key b) :
    (insertLe key x l).Sorted fun a b => key a ≤ key b := by
  induction l with
  | nil => simp [insertLe]
  | cons y ys ih =>
    rw [insertLe]
    rw [List.sorted_cons] at hl
    obtain ⟨hy, hys⟩ := hl
    split_ifs with h
    · rw [List.sorted_cons]
      refine ⟨?_, List.sorted_cons.mpr ⟨hy, hys⟩⟩
      intro b hb
      rcases List.mem_cons.mp hb with rfl | hbys
      · exact h
      · exact le_trans h (hy b hbys)
    · rw [List.sorted_cons]
      refine ⟨?_, ih hys⟩
      intro b hb
      have hb2 := (insertLe_perm key x ys).mem_iff.mp hb
      rcases List.mem_cons.mp hb2 with rfl | hbys
      · exact le_of_not_le h
      · exact hy b hbys

lemma isort_sorted {α : Type} (key : α → ℚ) (l : List α) :
    (isort key l).Sorted fun a b => key a ≤ key b := by
  induction l with
  | nil => simp [isort]
  | cons x xs ih => exact insertLe_sorted key x (isort key xs) ih

lemma insertLe_filter {α : Type} (key : α → ℚ) (q : ℚ) (x : α) (l : List α) :
    (insertLe key x l).filter (fun z => decide (key z = q))
      = if key x = q then x :: l.filter (fun z => decide (key z = q))
        else l.filter fun z => decide (key z = q) := by
  induction l with
  | nil =>
    by_cases hx : key x = q <;> simp [insertLe, List.filter, hx]
  | cons y ys ih =>
    rw [insertLe]
    by_cases h : key x ≤ key y
    · rw [if_pos h]
      by_cases hx : key x = q <;> simp [List.filter_cons, hx]
    · rw [if_neg h]
      by_cases hx : key x = q
      · by_cases hy : key y = q
        · exact absurd (le_of_eq (hx.trans hy.symm)) h
        · simp [List.filter_cons, hx, hy, ih]
      · by_cases hy : key y = q <;> simp [List.filter_cons, hx, hy, ih]

lemma isort_filter {α : Type} (key : α → ℚ) (q : ℚ) (l : List α) :
    (isort key l).filter (fun z => decide (key z = q))
      = l.filter fun z => decide (key z = q) := by
  induction l with
  | nil => rfl
  | cons x xs ih =>
    show (insertLe key x (isort key xs)).filter _ = _
    rw [insertLe_filter, ih]
    by_cases h : key x = q <;> simp [List.filter_cons, h]

/-- C10 (amended): the candidate sort is a permutation sorted by urgency
descending, and candidates of any given urgency keep exactly the relative
order they had in the input list (Python's sort is stable and the key is
`-urgency` alone): the pick order is a deterministic function of the
candidate sequence and its urgencies, not of (urgency, uuid) pairs. -/
theorem C10_sort_stable_descending (st : SchedState) (l : List ℕ) :
    (sortByUrgency st l).Perm l ∧
      List.Sorted (fun u v => urgOf st v ≤ urgOf st u) (sortByUrgency st l) ∧
      ∀ q : ℚ, (sortByUrgency st l).filter (fun u => decide (urgOf st u = q))
        = l.filter fun u => decide (urgOf st u = q) := by
  refine ⟨isort_perm _ l, ?_, ?_⟩
  · have h := isort_sorted (fun u => -urgOf st u) l
    exact List.Pairwise.imp (fun hab => by simpa using hab) h
  · intro q
    have h := isort_filter (fun u => -urgOf st u) (-q) l
    have hfun : (fun u => decide (-urgOf st u = -q)) = fun u => decide (urgOf st u = q) := by
      funext u
      simp [neg_inj]
    rw [hfun] at h
    exact h

lemma schedule_task_on_day_note_wait (ttm : ℕ → ℚ) (today wd : ℤ) (off : ℕ) (s : SeqSt)
    (h : ∀ p ∈ s.note, wd < p.1) :
    ∀ p ∈ (schedule_task_on_day ttm today (some wd) off s).note, wd < p.1 := by
  intro p hp
  rw [schedule_task_on_day] at hp
  split_ifs at hp with h1
  · exact h p hp
  · have hcur : wd < today + (off : ℤ) := lt_of_not_le h1
    rw [schedule_core] at hp
    split_ifs at hp
    all_goals
      rcases List.mem_append.mp hp with h2 | h2
      · exact h p h2
      · rw [List.mem_singleton] at h2
        rw [h2]
        exact hcur

/-- C6 (amended): the sequential allocator records no allocation on a date
`≤ wait` — in particular none earlier than the wait date — for any task
state whose note already satisfies this (initially the note is empty).
The parallel allocator performs no such masking (see the counterexample). -/
theorem C6_sequential_wait_respected (ttm : ℕ → ℚ) (today wd : ℤ) (D : ℕ) (s0 : SeqSt)
    (h0 : ∀ p ∈ s0.note, wd < p.1) :
    ∀ p ∈ (runSeqTask ttm today (some wd) D s0).note, wd < p.1 := by
  rw [runSeqTask]
  generalize List.range D = l
  induction l generalizing s0 with
  | nil => exact h0
  | cons off rest ih =>
    rw [seqTaskLoop]
    have h1 : ∀ p ∈ (if s0.used off < ttm off then
        schedule_task_on_day ttm today (some wd) off s0 else s0).note, wd < p.1 := by
      split_ifs with hg
      · exact schedule_task_on_day_note_wait ttm today wd off s0 h0
      · exact h0
    cases hend : (if s0.used off < ttm off then
        schedule_task_on_day ttm today (some wd) off s0 else s0).end_date with
    | some e => simpa only [hend] using h1
    | none => simpa only [hend] using ih _ h1

/-- Witness for the amended C6: a task waiting until day 1 is scheduled on
day 2 only; the first note entry's date is past the wait date. -/
theorem C6_sequential_wait_respected_witness :
    (1 : ℤ) < ((runSeqTask (fun _ => 8) 0 (some 1) 3 seqS0).note.getD 0 (0, 0)).1 := by
  refine C6_sequential_wait_respected (fun _ => 8) 0 1 3 seqS0
    (by intro p hp; simp [seqS0] at hp) _ ?_
  norm_num [runSeqTask, seqTaskLoop, schedule_task_on_day, schedule_core, seqS0,
    List.range_succ]

end Taskcheck

